import Mathlib

/-!
Shallow embedding of the ETL pipeline (src/ex3.py, src/ex5.py, src/ex6.py).

Modelling conventions:
* A pandas cell of a string column is `Option String`; `none` is a missing
  value (`NaN` from an empty CSV cell, or `pd.NA` introduced by
  `df.replace({"": pd.NA})`).  `astype(str)` renders a missing value as the
  literal text "nan" (pandas renders `NaN` as "nan" and `pd.NA` as "<NA>";
  both are non-empty strings, we use "nan" uniformly).
* A numeric column after `pd.to_numeric(..., errors="coerce")` is
  `Option ℚ`; `none` is a missing or unparseable cell.
* A `transaction_date` is modelled as a day number (`Nat`); the code parses
  the textual date with `pd.to_datetime` and compares/sorts/maxes the
  parsed values, which is order-isomorphic to `Nat` day numbers.
-/

/-- pandas `Series.astype(str)` on a string column: a present value is kept,
a missing value is rendered as the non-empty literal "nan". -/
def astypeStr : Option String → String
  | none => "nan"
  | some s => s

/-- Model of `df.replace({"": pd.NA})` on one cell: an exactly-empty string becomes
missing; everything else (including whitespace-only strings) is kept. -/
def replaceEmpty : Option String → Option String
  | some "" => none
  | c => c

/-- A cleaned sales row (output of `clean_sales` / `transform_sales`). -/
structure SaleRec where
  transaction_id : String
  product_id : String
  customer_id : String
  quantity : ℚ
  transaction_date : Nat
deriving DecidableEq, Repr

/- ------------------------------------------------------------------ -/
/- ex5.py `validate_referential_integrity` (lines 229-268)             -/
/- ------------------------------------------------------------------ -/

/-- Predicate `prod_ok & cust_ok` for one sales row: both foreign keys exist in the
parent key sets. -/
def referentialOk (prodKeys custKeys : List String) (r : SaleRec) : Bool :=
  prodKeys.contains r.product_id && custKeys.contains r.customer_id

/-- The `reject_reason` string built for a rejected row: the
`INVALID_PRODUCT_ID;` tag is appended when `prod_ok` fails and the
`INVALID_CUSTOMER_ID;` tag when `cust_ok` fails (a row can carry both). -/
def rejectReason (prodKeys custKeys : List String) (r : SaleRec) : String :=
  (if prodKeys.contains r.product_id then "" else "INVALID_PRODUCT_ID;") ++
  (if custKeys.contains r.customer_id then "" else "INVALID_CUSTOMER_ID;")

/-- ex5 `validate_referential_integrity`: split the cleaned sales batch into
the rows passing both key tests and the rows failing at least one, the
latter annotated with their `reject_reason`. -/
def validate_referential_integrity (sales : List SaleRec)
    (prodKeys custKeys : List String) :
    List SaleRec × List (SaleRec × String) :=
  (sales.filter (fun r => referentialOk prodKeys custKeys r),
   (sales.filter (fun r => !(referentialOk prodKeys custKeys r))).map
     (fun r => (r, rejectReason prodKeys custKeys r)))

/- ------------------------------------------------------------------ -/
/- ex5.py / ex3.py customer de-duplication (`choose_best_record`,      -/
/- ex5 lines 137-155, ex3 lines 101-116) and ex6.py `clean_customers`  -/
/- keep-first de-duplication (ex6 lines 192-199)                       -/
/- ------------------------------------------------------------------ -/

/-- A cleaned customer row as it reaches the de-duplication stage:
`customer_id` and `name` have been through `astype(str)` and are plain
strings; `email` and `country` are nullable. -/
structure CustRec where
  customer_id : String
  name : String
  email : Option String
  country : Option String
deriving DecidableEq, Repr

/-- Model of `group[["name", "email", "country"]].notna().sum(axis=1)`: the number
of non-null cells among name, email, country.  At this stage `name` has
been through `astype(str)` and is never null, so it contributes a constant
1. -/
def completenessScore (r : CustRec) : Nat :=
  1 + (if r.email.isSome then 1 else 0) + (if r.country.isSome then 1 else 0)

/-- One step of `scores.idxmax()`: keep the current best unless a strictly
greater score appears (so the first index attaining the maximum wins). -/
def bestStep (best r : CustRec) : CustRec :=
  if completenessScore best < completenessScore r then r else best

/-- ex5/ex3 `choose_best_record`: `best_idx = scores.idxmax()` followed by
`group.loc[best_idx]` — the first record of the group (groups preserve
input order) attaining the maximal completeness score. -/
def choose_best_record : List CustRec → Option CustRec
  | [] => none
  | g :: gs => some (gs.foldl bestStep g)

/-- The group of rows of a batch sharing one `customer_id`
(`df.groupby("customer_id")` membership), in input order. -/
def groupFor (batch : List CustRec) (k : String) : List CustRec :=
  batch.filter (fun r => r.customer_id == k)

/-- The distinct `customer_id` keys of a batch, in first-occurrence order. -/
def groupKeys (batch : List CustRec) : List String :=
  (batch.map (fun r => r.customer_id)).dedup

/-- ex5/ex3 de-duplication:
`df.groupby("customer_id", ...).apply(choose_best_record)`.
(`groupby` emits the groups in sorted-key order; we emit them in
first-occurrence key order, which only permutes the output list and no
per-key property depends on it.) -/
def customers_dedup (batch : List CustRec) : List CustRec :=
  (groupKeys batch).filterMap (fun k => choose_best_record (groupFor batch k))

/-- Model of `drop_duplicates(subset=[key], keep="first")`: keep the first
occurrence of each key, in input order; `seen` is the list of keys already
emitted. -/
def keepFirstBy (key : α → String) : List α → List String → List α
  | [], _ => []
  | x :: xs, seen =>
    if seen.contains (key x) then keepFirstBy key xs seen
    else x :: keepFirstBy key xs (key x :: seen)

/-- ex6 `clean_customers` de-duplication stage:
`df.sort_index().drop_duplicates(subset=["customer_id"], keep="first")`. -/
def clean_customers_dedup (batch : List CustRec) : List CustRec :=
  keepFirstBy (fun r => r.customer_id) batch []

/-- Maximal completeness score of a group (0 for an empty group). -/
def maxScore (g : List CustRec) : Nat :=
  (g.map completenessScore).foldr max 0

/-- The spec's description of the chosen record: the earliest record in
input order among those with the maximal completeness score. -/
def earliestBest (g : List CustRec) : Option CustRec :=
  g.find? (fun r => completenessScore r == maxScore g)

/- ------------------------------------------------------------------ -/
/- ex3.py watermark state and incremental loader (lines 167-275)       -/
/- ------------------------------------------------------------------ -/

/-- One row of the `ex_3_etl_state` table (there is a single pipeline name,
`ex_3_sales`, so the store is at most one row). -/
structure EtlState where
  last_processed_date : Option Nat
  last_run_ts : Nat
  last_run_rows : Nat
deriving DecidableEq, Repr

/-- Model of `get_last_watermark`: `none` when no state row exists (first run,
full load); otherwise the stored `last_processed_date` (itself nullable). -/
def get_last_watermark : Option EtlState → Option Nat
  | none => none
  | some s => s.last_processed_date

/-- Model of `update_state`: upsert of the single state row (`INSERT ... ON
DUPLICATE KEY UPDATE`); `ts` models `datetime.now()`. -/
def update_state (wm : Option Nat) (ts rows : Nat) : Option EtlState :=
  some ⟨wm, ts, rows⟩

/-- The `sort_values("transaction_date_dt")` key order. -/
def dateLe (a b : SaleRec) : Prop :=
  a.transaction_date ≤ b.transaction_date

instance : DecidableRel dateLe := fun x y => Nat.decLe x.transaction_date y.transaction_date

instance : IsTotal SaleRec dateLe := ⟨fun x y => Nat.le_total x.transaction_date y.transaction_date⟩

instance : IsTrans SaleRec dateLe := ⟨fun _ _ _ => Nat.le_trans⟩

/-- The rows qualifying for this run: the whole batch on a first run
(`last_wm is None`, full mode), otherwise exactly the rows whose
transaction date is strictly greater than the stored watermark. -/
def qualifying (wm : Option Nat) (batch : List SaleRec) : List SaleRec :=
  match wm with
  | none => batch
  | some w => batch.filter (fun r => decide (w < r.transaction_date))

/-- Model of `inc_df` after `inc_df.sort_values("transaction_date_dt")`: the
qualifying rows sorted ascending by date.  (pandas `sort_values` uses an
unstable quicksort; we embed insertion sort — every property proved below
is sort-algorithm independent: the result is a permutation of the
qualifying rows that is sorted by date.) -/
def incBatch (wm : Option Nat) (batch : List SaleRec) : List SaleRec :=
  (qualifying wm batch).insertionSort dateLe

/-- Model of `inc_df["transaction_date"].max()` (taken on the ISO strings, whose
order is the order of the parsed dates). -/
def maxDate (l : List SaleRec) : Nat :=
  (l.map (fun r => r.transaction_date)).foldr max 0

/-- ex3 `load_incremental_sales` as a step function over the persisted
state row: returns the new state row and the batch loaded into the sink.
A zero-row incremental batch calls `update_state(last_wm, 0)` and loads
nothing; otherwise the staged rows are upserted and
`update_state(max transaction_date, row count)` runs. -/
def load_incremental_sales (store : Option EtlState) (batch : List SaleRec)
    (ts : Nat) : Option EtlState × List SaleRec :=
  if (incBatch (get_last_watermark store) batch).length = 0 then
    (update_state (get_last_watermark store) ts 0, [])
  else
    (update_state
        (some (maxDate (incBatch (get_last_watermark store) batch))) ts
        (incBatch (get_last_watermark store) batch).length,
     incBatch (get_last_watermark store) batch)

/-- Ordering on nullable watermarks: an absent watermark precedes
everything, and present watermarks compare by date. -/
def wmLe : Option Nat → Option Nat → Bool
  | none, _ => true
  | some _, none => false
  | some a, some b => a ≤ b

/-- A sequence of successful incremental runs: each run hands its state
row to the next; every run comes with its cleaned batch and timestamp. -/
def run_sequence : Option EtlState → List (List SaleRec × Nat) → Option EtlState
  | store, [] => store
  | store, (batch, ts) :: rest =>
    run_sequence (load_incremental_sales store batch ts).1 rest

/- ------------------------------------------------------------------ -/
/- ex6.py `fetch_all_product_metadata` (lines 55-149)                  -/
/- ------------------------------------------------------------------ -/

/-- Leading-whitespace drop on a character list (one side of `strip`). -/
def dropWs : List Char → List Char
  | [] => []
  | c :: cs => if c.isWhitespace then dropWs cs else c :: cs

/-- Model of `str.strip()`: surrounding whitespace removed on both sides. -/
def pyStrip (s : String) : String :=
  String.mk (List.reverse (dropWs (List.reverse (dropWs s.data))))

/-- Model of `str.lower()`: character-wise lower-casing. -/
def pyLower (s : String) : String :=
  String.mk (s.data.map Char.toLower)

/-- A normalized metadata record as returned by the fetcher. -/
structure ApiRec where
  product_id : String
  description : Option String
  rating : Option ℚ
  availability_status : Option String
deriving DecidableEq, Repr

/-- One element of the parsed JSON array after `pd.json_normalize` and the
column typing of the fetcher: a missing field is `none`
(`api_df[col] = pd.NA`), and `rating` carries the value after
`pd.to_numeric(..., errors="coerce")` (missing or unparseable ↦ `none`). -/
structure RawApiRec where
  product_id : Option String
  description : Option String
  rating : Option ℚ
  availability_status : Option String
deriving DecidableEq, Repr

/-- The rating clamp: rows with `(rating < 0) | (rating > 5)` are assigned
`rating.clip(0, 5)`; in-range and null ratings are untouched. -/
def clampRating (q : ℚ) : ℚ :=
  if q < 0 ∨ 5 < q then max 0 (min 5 q) else q

/-- Field normalization of one raw record: `astype(str).str.strip()` on
the key, nullable string dtype for description and availability, numeric
coercion plus clamp for the rating. -/
def normalizeApiRecord (r : RawApiRec) : ApiRec :=
  ⟨pyStrip (astypeStr r.product_id), r.description,
   r.rating.map clampRating, r.availability_status⟩

/-- Model of `drop_duplicates(subset=["product_id"], keep="last")`: keep the last
occurrence of each key; implemented as keep-first on the reversed list. -/
def dedupKeepLast (l : List ApiRec) : List ApiRec :=
  (keepFirstBy (fun a => a.product_id) l.reverse []).reverse

/-- The fetcher's normalization of a successfully parsed record array. -/
def normalizeApiBatch (rs : List RawApiRec) : List ApiRec :=
  dedupKeepLast (rs.map normalizeApiRecord)

/-- The body of one HTTP response: a parsed JSON record array, or anything
else (unparseable JSON or a non-array document). -/
inductive Body where
  | arr : List RawApiRec → Body
  | malformed : Body
deriving DecidableEq

/-- The transport-level outcome of one `requests.get` call: a timeout, any
other `RequestException`, or a response with a status code and a body. -/
inductive NetResult where
  | timeout : NetResult
  | netError : NetResult
  | response : Nat → Body → NetResult
deriving DecidableEq

def REQUEST_TIMEOUT : Nat := 5

def MAX_RETRIES : Nat := 3

def BACKOFF_FACTOR : Nat := 2

/-- The observable outcome of `fetch_all_product_metadata`: the returned
batch, the number of HTTP requests issued, and the backoff sleeps
performed (in seconds, in order). -/
structure FetchOutcome where
  result : List ApiRec
  requests : Nat
  waits : List Nat
deriving DecidableEq, Repr

/-- The retry loop `while attempt < MAX_RETRIES` of
`fetch_all_product_metadata`.  `env n` is the outcome of the n-th HTTP
request; the loop issues one request per iteration and `attempt` equals
the iteration index, so `fuel = MAX_RETRIES - attempt` makes the loop
condition structural.  On a timeout: `attempt += 1`, sleep
`BACKOFF_FACTOR ** attempt`, continue.  On any other transport error:
return an empty frame at once.  On a non-200 status: `attempt += 1`; if
`attempt >= MAX_RETRIES` return an empty frame, else sleep and continue.
On a 200 response: an unparseable or non-array body returns an empty
frame; an array is normalized and returned. -/
def fetchGo (env : Nat → NetResult) (attempt : Nat) : Nat → FetchOutcome
  | 0 => ⟨[], 0, []⟩
  | fuel + 1 =>
    match env attempt with
    | NetResult.timeout =>
      let rest := fetchGo env (attempt + 1) fuel
      ⟨rest.result, rest.requests + 1,
       BACKOFF_FACTOR ^ (attempt + 1) :: rest.waits⟩
    | NetResult.netError => ⟨[], 1, []⟩
    | NetResult.response status body =>
      if status ≠ 200 then
        if attempt + 1 ≥ MAX_RETRIES then ⟨[], 1, []⟩
        else
          let rest := fetchGo env (attempt + 1) fuel
          ⟨rest.result, rest.requests + 1,
           BACKOFF_FACTOR ^ (attempt + 1) :: rest.waits⟩
      else
        match body with
        | Body.malformed => ⟨[], 1, []⟩
        | Body.arr rs => ⟨normalizeApiBatch rs, 1, []⟩

/-- ex6 `fetch_all_product_metadata`: the retry loop started at
`attempt = 0` against the sequence of network outcomes `env`. -/
def fetch_all_product_metadata (env : Nat → NetResult) : FetchOutcome :=
  fetchGo env 0 MAX_RETRIES

/-- The configured backoff schedule: the sum of
`BACKOFF_FACTOR ^ a` for `a` from `attempt + 1` up to `attempt + fuel`. -/
def backoffBudget (attempt : Nat) : Nat → Nat
  | 0 => 0
  | fuel + 1 => BACKOFF_FACTOR ^ (attempt + 1) + backoffBudget (attempt + 1) fuel

/- ------------------------------------------------------------------ -/
/- ex6.py `enrich_products_with_api` (lines 240-292)                   -/
/- ------------------------------------------------------------------ -/

/-- A cleaned product row (`clean_products` output): key and name are
plain strings, category is canonical or "Unknown", price is nullable. -/
structure ProdRec where
  product_id : String
  product_name : String
  category : String
  price : Option ℚ
deriving DecidableEq, Repr

/-- A product row after enrichment with API metadata. -/
structure EnrichedRec where
  product_id : String
  product_name : String
  category : String
  price : Option ℚ
  description : Option String
  rating : Option ℚ
  availability_status : Option String
deriving DecidableEq, Repr

/-- ex6 `enrich_products_with_api`.  When the API frame is empty the base
products are returned with `description`, `rating` and
`availability_status` all set to NULL.  Otherwise a left merge on
`product_id` is performed (the fetcher's output is key-unique after its
keep-last de-duplication, so the left join matches at most one metadata
row per product, embedded as `find?`), after which null descriptions are
filled with the fixed placeholder text, null availability with "Unknown",
and null ratings are left as NULL. -/
def enrich_products_with_api (products : List ProdRec) (api : List ApiRec) :
    List EnrichedRec :=
  if api.isEmpty then
    products.map (fun p =>
      ⟨p.product_id, p.product_name, p.category, p.price, none, none, none⟩)
  else
    products.map (fun p =>
      match api.find? (fun a => a.product_id == p.product_id) with
      | some a =>
        ⟨p.product_id, p.product_name, p.category, p.price,
         some (a.description.getD "No description available."),
         a.rating,
         some (a.availability_status.getD "Unknown")⟩
      | none =>
        ⟨p.product_id, p.product_name, p.category, p.price,
         some "No description available.", none, some "Unknown"⟩)

/- ------------------------------------------------------------------ -/
/- ex5.py Normalizer: `clean_products` (48-102), `clean_customers`     -/
/- (106-155), `clean_sales` (159-225)                                  -/
/- ------------------------------------------------------------------ -/

/-- A raw product row: string cells are `Option String` (`none` = missing
cell, i.e. `NaN` after `read_csv`), `price` holds the value after
`pd.to_numeric(..., errors="coerce")` (`none` = missing or unparseable). -/
structure RawProdRow where
  product_id : Option String
  product_name : Option String
  category : Option String
  price : Option ℚ
deriving DecidableEq, Repr

/-- A raw customer row. -/
structure RawCustRow where
  customer_id : Option String
  name : Option String
  email : Option String
  country : Option String
deriving DecidableEq, Repr

/-- A raw `transaction_date` cell: missing (`NaN`/`NA`, so
`df["transaction_date"].isna()` holds), present but unparseable by
`pd.to_datetime(..., errors="coerce")`, or parseable to a day number. -/
inductive RawDate where
  | missing : RawDate
  | unparseable : RawDate
  | parsed : Nat → RawDate
deriving DecidableEq, Repr

/-- A raw sales row (`quantity` after numeric coercion, as above). -/
structure RawSaleRow where
  transaction_id : Option String
  product_id : Option String
  customer_id : Option String
  quantity : Option ℚ
  transaction_date : RawDate
deriving DecidableEq, Repr

def CANONICAL_CATEGORIES : List (String × String) :=
  [("electronics", "Electronics"), ("clothing", "Clothing"),
   ("books", "Books"), ("home", "Home"), ("sports", "Sports")]

/-- Model of `df["category"].astype(str).str.strip().str.lower().map(CANONICAL_CATEGORIES)`
followed by the `Unknown` fill for unmapped values. -/
def mapCategory (c : Option String) : String :=
  match CANONICAL_CATEGORIES.lookup (pyLower (pyStrip (astypeStr c))) with
  | some v => v
  | none => "Unknown"

/-- ex5 `clean_products`: category canonicalization, `astype(str).strip()`
on key and name, drop of rows whose (stringified) key or name is the empty
string, numeric price coercion with negative prices nulled. -/
def clean_products (rows : List RawProdRow) : List ProdRec :=
  ((rows.map (fun r =>
      (⟨pyStrip (astypeStr r.product_id), pyStrip (astypeStr r.product_name),
        mapCategory r.category,
        match r.price with
        | none => none
        | some q => if q < 0 then none else some q⟩ : ProdRec))).filter
    (fun p => !(p.product_id == "" || p.product_name == "")))

/-- ex5 `clean_customers`: `replace({"": pd.NA})` on every cell, then
`astype(str).strip()` on key and name, the critical-field mask
(`isna()` is identically false after `astype(str)`, leaving the two
empty-string tests), the email format check (nulling failures; the regex
is the abstract predicate `emailOk`), and the completeness-based
de-duplication.  The email transform commutes with the critical-field
filter (the mask does not read the email column). -/
def clean_customers (emailOk : String → Bool) (rows : List RawCustRow) :
    List CustRec :=
  customers_dedup
    ((rows.map (fun r =>
        (⟨pyStrip (astypeStr (replaceEmpty r.customer_id)),
          pyStrip (astypeStr (replaceEmpty r.name)),
          (replaceEmpty r.email).bind
            (fun e => if emailOk e then some e else none),
          replaceEmpty r.country⟩ : CustRec))).filter
      (fun c => !(c.customer_id == "" || c.name == "")))

/-- An intermediate sales row after `replace` and `astype(str).strip()` of
the three id columns. -/
structure SaleStage where
  transaction_id : String
  product_id : String
  customer_id : String
  quantity : Option ℚ
  transaction_date : RawDate
deriving DecidableEq, Repr

/-- Model of `df["transaction_date"].isna()` on the raw column. -/
def isnaDate : RawDate → Bool
  | RawDate.missing => true
  | _ => false

/-- Model of `pd.to_datetime(..., errors="coerce")` on the raw column. -/
def parseDate : RawDate → Option Nat
  | RawDate.parsed d => some d
  | _ => none

/-- ex5 `clean_sales`: `replace({"": pd.NA})`, `astype(str).strip()` on
the three ids, the critical-field mask (empty-string ids or a missing
date; `isna()` on the ids is identically false after `astype(str)`), then
the drop of non-numeric quantities, of non-positive quantities, and of
unparseable dates, with the date normalized to its parsed day number. -/
def clean_sales (rows : List RawSaleRow) : List SaleRec :=
  (((rows.map (fun r =>
      (⟨pyStrip (astypeStr (replaceEmpty r.transaction_id)),
        pyStrip (astypeStr (replaceEmpty r.product_id)),
        pyStrip (astypeStr (replaceEmpty r.customer_id)),
        r.quantity, r.transaction_date⟩ : SaleStage))).filter
    (fun s => !(s.transaction_id == "" || s.product_id == ""
        || s.customer_id == "" || isnaDate s.transaction_date))).filterMap
    (fun s =>
      match s.quantity with
      | none => none
      | some q =>
        if q ≤ 0 then none
        else
          match parseDate s.transaction_date with
          | none => none
          | some d =>
            some (⟨s.transaction_id, s.product_id, s.customer_id, q, d⟩ :
              SaleRec)))

/-! Theorems. -/

/- helper lemmas on filters -/

theorem filter_partition_length (p : α → Bool) (l : List α) :
    (l.filter p).length + (l.filter (fun a => !(p a))).length = l.length := by
  induction l with
  | nil => rfl
  | cons a l ih =>
    cases h : p a <;> simp [List.filter_cons, h] <;> omega

theorem count_filter_partition [DecidableEq α] (p : α → Bool) (l : List α) (a : α) :
    (l.filter p).count a + (l.filter (fun x => !(p x))).count a = l.count a := by
  cases h : p a
  · have h1 : (l.filter p).count a = 0 := by
      refine List.count_eq_zero.mpr ?_
      intro hmem
      exact absurd ((List.mem_filter.mp hmem).2) (by simp [h])
    have h2 : (l.filter (fun x => !(p x))).count a = l.count a :=
      List.count_filter (by simp [h])
    omega
  · have h1 : (l.filter p).count a = l.count a := List.count_filter (by simp [h])
    have h2 : (l.filter (fun x => !(p x))).count a = 0 := by
      refine List.count_eq_zero.mpr ?_
      intro hmem
      exact absurd ((List.mem_filter.mp hmem).2) (by simp [h])
    omega

/-- C1: for every cleaned sales batch and parent key sets, the referential
validator partitions the batch: `|valid| + |rejected| = |cleaned|`, no row
value lies in both outputs, and every row's multiplicity in the input is
split exactly between the two outputs (so no row is silently dropped). -/
theorem referential_validator_partitions (sales : List SaleRec)
    (pk ck : List String) :
    ((validate_referential_integrity sales pk ck).1.length
      + (validate_referential_integrity sales pk ck).2.length = sales.length)
    ∧ (∀ r, ¬(r ∈ (validate_referential_integrity sales pk ck).1
        ∧ r ∈ (validate_referential_integrity sales pk ck).2.map Prod.fst))
    ∧ (∀ r, r ∈ sales ↔
        (r ∈ (validate_referential_integrity sales pk ck).1
          ∨ r ∈ (validate_referential_integrity sales pk ck).2.map Prod.fst))
    ∧ (∀ r, (validate_referential_integrity sales pk ck).1.count r
        + ((validate_referential_integrity sales pk ck).2.map Prod.fst).count r
        = sales.count r) := by
  have hmap : (validate_referential_integrity sales pk ck).2.map Prod.fst
      = sales.filter (fun r => !(referentialOk pk ck r)) := by
    simp only [validate_referential_integrity, List.map_map]
    have : (Prod.fst ∘ fun r : SaleRec => (r, rejectReason pk ck r)) = fun r => r := rfl
    rw [this, List.map_id']
  refine ⟨?_, ?_, ?_, ?_⟩
  · have := filter_partition_length (fun r => referentialOk pk ck r) sales
    simpa [validate_referential_integrity] using this
  · intro r hr
    rw [hmap] at hr
    rcases hr with ⟨h1, h2⟩
    simp [validate_referential_integrity, List.mem_filter] at h1 h2
    exact absurd h1.2 (by simp [h2.2])
  · intro r
    rw [hmap]
    simp only [validate_referential_integrity, List.mem_filter]
    constructor
    · intro hr
      by_cases h : referentialOk pk ck r = true
      · exact Or.inl ⟨hr, h⟩
      · exact Or.inr ⟨hr, by simp [Bool.not_eq_true] at h; simp [h]⟩
    · rintro (⟨hr, _⟩ | ⟨hr, _⟩) <;> exact hr
  · intro r
    rw [hmap]
    have := count_filter_partition (fun r => referentialOk pk ck r) sales r
    simpa [validate_referential_integrity] using this

/- lemmas about the fold underlying `choose_best_record` -/

theorem foldl_bestStep_of_le (l : List CustRec) :
    ∀ a : CustRec, (∀ x ∈ l, completenessScore x ≤ completenessScore a) →
      l.foldl bestStep a = a := by
  induction l with
  | nil => intro a _; rfl
  | cons r l ih =>
    intro a h
    have hr : completenessScore r ≤ completenessScore a := h r (by simp)
    have hstep : bestStep a r = a := by
      unfold bestStep
      rw [if_neg (by omega)]
    rw [List.foldl_cons, hstep]
    exact ih a (fun x hx => h x (by simp [hx]))

theorem score_foldl_bestStep (l : List CustRec) :
    ∀ a : CustRec, completenessScore (l.foldl bestStep a)
      = max (completenessScore a) (maxScore l) := by
  induction l with
  | nil => intro a; simp [maxScore]
  | cons r l ih =>
    intro a
    rw [List.foldl_cons, ih]
    have hstep : completenessScore (bestStep a r)
        = max (completenessScore a) (completenessScore r) := by
      unfold bestStep
      by_cases h : completenessScore a < completenessScore r
      · rw [if_pos h]
        exact (Nat.max_eq_right (Nat.le_of_lt h)).symm
      · rw [if_neg h]
        exact (Nat.max_eq_left (Nat.le_of_not_lt h)).symm
    have hms : maxScore (r :: l) = max (completenessScore r) (maxScore l) := rfl
    rw [hstep, hms, Nat.max_assoc]

theorem foldl_bestStep_mem (l : List CustRec) :
    ∀ a : CustRec, l.foldl bestStep a ∈ a :: l := by
  induction l with
  | nil => intro a; simp
  | cons r l ih =>
    intro a
    rw [List.foldl_cons]
    have h := ih (bestStep a r)
    have hor : bestStep a r = a ∨ bestStep a r = r := by
      unfold bestStep
      by_cases hc : completenessScore a < completenessScore r
      · exact Or.inr (if_pos hc)
      · exact Or.inl (if_neg hc)
    rcases List.mem_cons.mp h with h | h
    · rcases hor with h' | h' <;> rw [h, h'] <;> simp
    · simp [List.mem_cons, h]

theorem le_maxScore_of_mem {x : CustRec} {l : List CustRec} (hx : x ∈ l) :
    completenessScore x ≤ maxScore l := by
  induction l with
  | nil => cases hx
  | cons r l ih =>
    have hms : maxScore (r :: l) = max (completenessScore r) (maxScore l) := rfl
    rw [hms]
    rcases List.mem_cons.mp hx with rfl | hx'
    · exact Nat.le_max_left _ _
    · exact Nat.le_trans (ih hx') (Nat.le_max_right _ _)

theorem find?_score_foldl (l : List CustRec) :
    ∀ a : CustRec,
      (a :: l).find?
          (fun r => completenessScore r == completenessScore (l.foldl bestStep a))
        = some (l.foldl bestStep a) := by
  induction l with
  | nil =>
    intro a
    simp [List.find?]
  | cons r l ih =>
    intro a
    rw [List.foldl_cons]
    by_cases hlt : completenessScore a < completenessScore r
    · have hstep : bestStep a r = r := if_pos hlt
      rw [hstep]
      have hbig : completenessScore a
          < completenessScore (l.foldl bestStep r) := by
        rw [score_foldl_bestStep]
        exact Nat.lt_of_lt_of_le hlt (Nat.le_max_left _ _)
      have hpa : ¬ ((completenessScore a
          == completenessScore (l.foldl bestStep r)) = true) := by
        simp only [beq_iff_eq]
        omega
      have h1 : List.find?
            (fun x => completenessScore x
              == completenessScore (l.foldl bestStep r)) (a :: r :: l)
          = List.find?
            (fun x => completenessScore x
              == completenessScore (l.foldl bestStep r)) (r :: l) :=
        List.find?_cons_of_neg _ hpa
      rw [h1]
      exact ih r
    · have hstep : bestStep a r = a := if_neg hlt
      rw [hstep]
      have hle : completenessScore a
          ≤ completenessScore (l.foldl bestStep a) := by
        rw [score_foldl_bestStep]
        exact Nat.le_max_left _ _
      by_cases heq : completenessScore a = completenessScore (l.foldl bestStep a)
      · have hb := score_foldl_bestStep l a
        rw [← heq] at hb
        have hmsl : maxScore l ≤ completenessScore a :=
          calc maxScore l ≤ max (completenessScore a) (maxScore l) :=
                Nat.le_max_right _ _
            _ = completenessScore a := hb.symm
        have hfix : l.foldl bestStep a = a :=
          foldl_bestStep_of_le l a
            (fun x hx => Nat.le_trans (le_maxScore_of_mem hx) hmsl)
        rw [hfix]
        exact List.find?_cons_of_pos _ (by simp)
      · have hgt : completenessScore a
            < completenessScore (l.foldl bestStep a) :=
          Nat.lt_of_le_of_ne hle heq
        have hra : completenessScore r ≤ completenessScore a :=
          Nat.le_of_not_lt hlt
        have hpa : ¬ ((completenessScore a
            == completenessScore (l.foldl bestStep a)) = true) := by
          simp only [beq_iff_eq]
          omega
        have hpr : ¬ ((completenessScore r
            == completenessScore (l.foldl bestStep a)) = true) := by
          simp only [beq_iff_eq]
          omega
        have h1 : List.find?
              (fun x => completenessScore x
                == completenessScore (l.foldl bestStep a)) (a :: r :: l)
            = List.find?
              (fun x => completenessScore x
                == completenessScore (l.foldl bestStep a)) (r :: l) :=
          List.find?_cons_of_neg _ hpa
        have h2 : List.find?
              (fun x => completenessScore x
                == completenessScore (l.foldl bestStep a)) (r :: l)
            = List.find?
              (fun x => completenessScore x
                == completenessScore (l.foldl bestStep a)) l :=
          List.find?_cons_of_neg _ hpr
        have h3 : List.find?
              (fun x => completenessScore x
                == completenessScore (l.foldl bestStep a)) (a :: l)
            = List.find?
              (fun x => completenessScore x
                == completenessScore (l.foldl bestStep a)) l :=
          List.find?_cons_of_neg _ hpa
        rw [h1, h2, ← h3]
        exact ih a

/-- The fold implementing `idxmax` computes exactly the earliest record
among those with maximal completeness score. -/
theorem choose_best_eq_earliestBest (g : List CustRec) (hg : g ≠ []) :
    choose_best_record g = earliestBest g := by
  cases g with
  | nil => exact absurd rfl hg
  | cons a l =>
    have hmax : maxScore (a :: l)
        = completenessScore (l.foldl bestStep a) := by
      rw [score_foldl_bestStep]
      simp [maxScore]
    have hp : (fun r : CustRec => completenessScore r == maxScore (a :: l))
        = (fun r : CustRec =>
            completenessScore r == completenessScore (l.foldl bestStep a)) := by
      funext r
      rw [hmax]
    rw [choose_best_record, earliestBest, hp, find?_score_foldl]

theorem choose_best_mem {g : List CustRec} {b : CustRec}
    (h : choose_best_record g = some b) : b ∈ g := by
  cases g with
  | nil => cases h
  | cons a l =>
    have hb : b = l.foldl bestStep a := by
      simpa [choose_best_record] using h.symm
    rw [hb]
    exact foldl_bestStep_mem l a

theorem groupFor_id {batch : List CustRec} {k : String} {r : CustRec}
    (h : r ∈ groupFor batch k) : r.customer_id = k := by
  have := (List.mem_filter.mp h).2
  simpa using this

theorem chooseFor_id {batch : List CustRec} {k : String} {b : CustRec}
    (h : choose_best_record (groupFor batch k) = some b) :
    b.customer_id = k :=
  groupFor_id (choose_best_mem h)

theorem groupFor_eq_nil {batch : List CustRec} {k : String}
    (h : k ∉ batch.map (fun r => r.customer_id)) : groupFor batch k = [] := by
  rw [groupFor]
  refine List.filter_eq_nil_iff.mpr ?_
  intro r hr
  simp only [beq_iff_eq]
  intro hid
  exact h (List.mem_map.mpr ⟨r, hr, hid⟩)

theorem filterMap_choose_filter (batch : List CustRec) (k : String) :
    ∀ ks : List String, ks.Nodup →
      ((ks.filterMap (fun k' => choose_best_record (groupFor batch k'))).filter
          (fun r => r.customer_id == k))
        = if k ∈ ks then (choose_best_record (groupFor batch k)).toList
          else [] := by
  intro ks
  induction ks with
  | nil => intro _; simp
  | cons k2 ks ih =>
    intro hnd
    have hk2 : k2 ∉ ks := (List.nodup_cons.mp hnd).1
    have hnd' : ks.Nodup := (List.nodup_cons.mp hnd).2
    cases hch : choose_best_record (groupFor batch k2) with
    | none =>
      simp only [List.filterMap_cons, hch]
      rw [ih hnd']
      by_cases hkk : k = k2
      · subst hkk
        rw [if_neg hk2, if_pos (by simp), hch]
        rfl
      · by_cases hmem : k ∈ ks
        · rw [if_pos hmem, if_pos (by simp [hmem])]
        · rw [if_neg hmem, if_neg (by simp [hkk, hmem])]
    | some b =>
      have hbid : b.customer_id = k2 := chooseFor_id hch
      simp only [List.filterMap_cons, hch]
      by_cases hkk : k = k2
      · subst hkk
        rw [List.filter_cons_of_pos (by simp [hbid])]
        rw [ih hnd', if_neg hk2, if_pos (by simp), hch]
        rfl
      · rw [List.filter_cons_of_neg
            (by simp only [hbid, beq_iff_eq]; exact fun h => hkk h.symm)]
        rw [ih hnd']
        by_cases hmem : k ∈ ks
        · rw [if_pos hmem, if_pos (by simp [hmem])]
        · rw [if_neg hmem, if_neg (by simp [hkk, hmem])]

/-- Per-key content of the ex5/ex3 deduplicated output: for every key the
output restricted to that key is exactly the record chosen by
`choose_best_record` on that key's group. -/
theorem customers_dedup_filter_eq (batch : List CustRec) (k : String) :
    ((customers_dedup batch).filter (fun r => r.customer_id == k))
      = (choose_best_record (groupFor batch k)).toList := by
  rw [customers_dedup]
  rw [filterMap_choose_filter batch k (groupKeys batch) (List.nodup_dedup _)]
  by_cases hk : k ∈ groupKeys batch
  · rw [if_pos hk]
  · rw [if_neg hk]
    have hnil : groupFor batch k = [] := by
      refine groupFor_eq_nil ?_
      intro hmem
      exact hk (List.mem_dedup.mpr hmem)
    rw [hnil]
    rfl

/-- Per-key content of the ex6 keep-first de-duplication: for a key not yet
seen, the output restricted to that key is the head of that key's group. -/
theorem keepFirstBy_filter_eq (k : String) :
    ∀ (batch : List CustRec) (seen : List String),
      ((keepFirstBy (fun r => r.customer_id) batch seen).filter
          (fun r => r.customer_id == k))
        = if seen.contains k then []
          else ((groupFor batch k).head?).toList := by
  intro batch
  induction batch with
  | nil =>
    intro seen
    by_cases hs : seen.contains k = true
    · rw [if_pos hs]
      rfl
    · rw [if_neg hs]
      rfl
  | cons r rs ih =>
    intro seen
    simp only [keepFirstBy]
    by_cases hs : seen.contains r.customer_id = true
    · rw [if_pos hs, ih]
      by_cases hrk : r.customer_id = k
      · have hsk : seen.contains k = true := hrk ▸ hs
        rw [if_pos hsk, if_pos hsk]
      · have hg : groupFor (r :: rs) k = groupFor rs k := by
          rw [groupFor, groupFor,
            List.filter_cons_of_neg (by simp only [beq_iff_eq]; exact hrk)]
        rw [hg]
    · rw [if_neg hs]
      by_cases hrk : r.customer_id = k
      · have hsk : ¬ seen.contains k = true := hrk ▸ hs
        rw [List.filter_cons_of_pos (by simp [hrk]), ih]
        rw [if_pos (show (r.customer_id :: seen).contains k = true by
          simp [List.contains_cons, hrk])]
        rw [if_neg hsk]
        have hg : groupFor (r :: rs) k = r :: groupFor rs k := by
          rw [groupFor, groupFor, List.filter_cons_of_pos (by simp [hrk])]
        rw [hg]
        rfl
      · rw [List.filter_cons_of_neg (by simp only [beq_iff_eq]; exact hrk), ih]
        have hcons : ((r.customer_id :: seen).contains k) = seen.contains k := by
          simp only [List.contains_cons]
          have : (k == r.customer_id) = false := by
            simp only [beq_eq_false_iff_ne, ne_eq]
            exact fun h => hrk h.symm
          rw [this, Bool.false_or]
        rw [hcons]
        have hg : groupFor (r :: rs) k = groupFor rs k := by
          rw [groupFor, groupFor,
            List.filter_cons_of_neg (by simp only [beq_iff_eq]; exact hrk)]
        rw [hg]

/-- C3: for every cleaned customer batch and every `customer_id` present in
it, the ex5/ex3 deduplicator outputs exactly one record for that key,
namely the earliest record in input order among the records of that key's
group with the maximal count of non-null fields in {name, email, country}. -/
theorem dedup_unique_earliest_best (batch : List CustRec) (k : String)
    (hk : k ∈ batch.map (fun r => r.customer_id)) :
    ((customers_dedup batch).filter (fun r => r.customer_id == k)).length = 1
    ∧ ((customers_dedup batch).filter (fun r => r.customer_id == k))
        = ((groupFor batch k).find?
            (fun r => completenessScore r == maxScore (groupFor batch k))).toList := by
  have hne : groupFor batch k ≠ [] := by
    rcases List.mem_map.mp hk with ⟨r, hr, hid⟩
    intro hnil
    have hmem : r ∈ groupFor batch k :=
      List.mem_filter.mpr ⟨hr, by simp [hid]⟩
    rw [hnil] at hmem
    cases hmem
  have hfe := customers_dedup_filter_eq batch k
  have hce := choose_best_eq_earliestBest (groupFor batch k) hne
  constructor
  · rw [hfe]
    cases hg : groupFor batch k with
    | nil => exact absurd hg hne
    | cons a l => rfl
  · rw [hfe, hce]
    rfl

/-- C3 witness: a concrete batch with a duplicated key, evaluated through
the theorem. -/
theorem dedup_unique_earliest_best_witness :
    ((customers_dedup
        [⟨"C1", "A", none, none⟩, ⟨"C1", "B", some "b@c.d", none⟩,
         ⟨"C2", "C", none, none⟩]).filter
        (fun r => r.customer_id == "C1")).length = 1 :=
  (dedup_unique_earliest_best
    [⟨"C1", "A", none, none⟩, ⟨"C1", "B", some "b@c.d", none⟩,
     ⟨"C2", "C", none, none⟩] "C1" (by decide)).1

/-- C10 counterexample: on a batch whose first duplicate is strictly less
complete than the second, ex5's max-completeness reduction keeps the second
record while ex6's keep-first de-duplication keeps the first, so the two
implementations do not produce the same output records. -/
theorem dedup_impls_differ :
    customers_dedup
        [⟨"C1", "A", none, none⟩, ⟨"C1", "A", some "a@b.c", none⟩]
      ≠ clean_customers_dedup
        [⟨"C1", "A", none, none⟩, ⟨"C1", "A", some "a@b.c", none⟩] := by
  decide

/-- C10 amended: the two customer duplicate-resolution implementations
agree, key by key, exactly on the batches in which the first record of
each duplicate group already has maximal completeness within its group;
on every batch violating that condition some key's output record
differs. -/
theorem dedup_impls_agree_iff_first_maximal (batch : List CustRec) :
    (∀ k, ((customers_dedup batch).filter (fun r => r.customer_id == k))
        = ((clean_customers_dedup batch).filter (fun r => r.customer_id == k)))
    ↔ (∀ k b, (groupFor batch k).head? = some b →
        ∀ r ∈ groupFor batch k, completenessScore r ≤ completenessScore b) := by
  constructor
  · intro hagree k b hhead r hr
    by_contra hlt
    have hbr : completenessScore b < completenessScore r :=
      Nat.lt_of_not_le hlt
    have h1 : (choose_best_record (groupFor batch k)).toList
        = ((groupFor batch k).head?).toList := by
      rw [← customers_dedup_filter_eq, hagree k, clean_customers_dedup,
        keepFirstBy_filter_eq]
      have hemp : (([] : List String).contains k) = false := rfl
      rw [hemp, if_neg (by simp)]
    cases hg : groupFor batch k with
    | nil =>
      rw [hg] at hhead
      simp at hhead
    | cons a l =>
      rw [hg] at hhead h1 hr
      have hab : a = b := by simpa using hhead
      subst hab
      have hfold : l.foldl bestStep a = a := by
        simpa [choose_best_record] using h1
      have hsc := score_foldl_bestStep l a
      rw [hfold] at hsc
      have hml : maxScore l ≤ completenessScore a :=
        calc maxScore l ≤ max (completenessScore a) (maxScore l) :=
              Nat.le_max_right _ _
          _ = completenessScore a := hsc.symm
      rcases List.mem_cons.mp hr with rfl | hrl
      · exact absurd hbr (Nat.lt_irrefl _)
      · have hrm := le_maxScore_of_mem hrl
        omega
  · intro h k
    rw [customers_dedup_filter_eq, clean_customers_dedup, keepFirstBy_filter_eq]
    have hemp : (([] : List String).contains k) = false := rfl
    rw [hemp, if_neg (by simp)]
    cases hg : groupFor batch k with
    | nil => rfl
    | cons a l =>
      have hmax : ∀ r ∈ groupFor batch k,
          completenessScore r ≤ completenessScore a :=
        h k a (by rw [hg]; rfl)
      have hfold : l.foldl bestStep a = a := by
        apply foldl_bestStep_of_le
        intro x hx
        exact hmax x (by rw [hg]; exact List.mem_cons_of_mem a hx)
      simp only [choose_best_record, hfold]
      rfl

theorem wmLe_refl (a : Option Nat) : wmLe a a = true := by
  cases a <;> simp [wmLe]

theorem wmLe_trans {a b c : Option Nat} (h1 : wmLe a b = true)
    (h2 : wmLe b c = true) : wmLe a c = true := by
  cases a <;> cases b <;> cases c <;> (simp [wmLe] at *; try omega)

theorem le_maxDate_of_mem {r : SaleRec} {l : List SaleRec} (hr : r ∈ l) :
    r.transaction_date ≤ maxDate l := by
  induction l with
  | nil => cases hr
  | cons x l ih =>
    have hms : maxDate (x :: l) = max x.transaction_date (maxDate l) := rfl
    rw [hms]
    rcases List.mem_cons.mp hr with rfl | hr'
    · exact Nat.le_max_left _ _
    · exact Nat.le_trans (ih hr') (Nat.le_max_right _ _)

theorem wmLe_load_step (store : Option EtlState) (batch : List SaleRec)
    (ts : Nat) :
    wmLe (get_last_watermark store)
      (get_last_watermark (load_incremental_sales store batch ts).1) = true := by
  rw [load_incremental_sales]
  by_cases h : (incBatch (get_last_watermark store) batch).length = 0
  · rw [if_pos h]
    exact wmLe_refl _
  · rw [if_neg h]
    cases hwm : get_last_watermark store with
    | none => rfl
    | some w =>
      show wmLe (some w) (some (maxDate (incBatch (some w) batch))) = true
      cases hinc : incBatch (some w) batch with
      | nil => rw [hwm, hinc] at h; exact absurd rfl h
      | cons r t =>
        have hrmem : r ∈ incBatch (some w) batch := by
          rw [hinc]; exact List.mem_cons_self r t
        have hq : r ∈ qualifying (some w) batch :=
          (List.perm_insertionSort dateLe (qualifying (some w) batch)).subset hrmem
        have hgt : w < r.transaction_date := by
          have := (List.mem_filter.mp hq).2
          simpa using this
        have hle : r.transaction_date ≤ maxDate (r :: t) :=
          le_maxDate_of_mem (List.mem_cons_self r t)
        simp only [wmLe, decide_eq_true_eq]
        omega

theorem wmLe_run_sequence (runs : List (List SaleRec × Nat)) :
    ∀ store : Option EtlState,
      wmLe (get_last_watermark store)
        (get_last_watermark (run_sequence store runs)) = true := by
  induction runs with
  | nil => intro store; exact wmLe_refl _
  | cons p rest ih =>
    intro store
    obtain ⟨batch, ts⟩ := p
    exact wmLe_trans (wmLe_load_step store batch ts)
      (ih (load_incremental_sales store batch ts).1)

theorem load_incremental_eq_zero (store : Option EtlState)
    (batch : List SaleRec) (ts : Nat)
    (h : (incBatch (get_last_watermark store) batch).length = 0) :
    load_incremental_sales store batch ts
      = (update_state (get_last_watermark store) ts 0, []) := by
  rw [load_incremental_sales, if_pos h]

theorem load_incremental_eq_pos (store : Option EtlState)
    (batch : List SaleRec) (ts : Nat)
    (h : ¬ (incBatch (get_last_watermark store) batch).length = 0) :
    load_incremental_sales store batch ts
      = (update_state
          (some (maxDate (incBatch (get_last_watermark store) batch))) ts
          (incBatch (get_last_watermark store) batch).length,
         incBatch (get_last_watermark store) batch) := by
  rw [load_incremental_sales, if_neg h]

/-- C2: the incremental loader's step function: with no stored watermark it
loads the entire cleaned valid sales batch (sorted ascending by date) and,
for a nonempty batch, sets the new watermark to the maximal transaction
date of the loaded batch; with a stored watermark it loads exactly the
rows whose transaction date is strictly greater than it, sorted ascending
by date before load. -/
theorem load_incremental_step (store : Option EtlState) (batch : List SaleRec)
    (ts : Nat) :
    (get_last_watermark store = none →
      ((load_incremental_sales store batch ts).2.Perm batch
        ∧ List.Sorted dateLe (load_incremental_sales store batch ts).2
        ∧ (batch ≠ [] →
            get_last_watermark (load_incremental_sales store batch ts).1
              = some (maxDate (load_incremental_sales store batch ts).2))))
    ∧ (∀ w, get_last_watermark store = some w →
      ((load_incremental_sales store batch ts).2.Perm
          (batch.filter (fun r => decide (w < r.transaction_date)))
        ∧ List.Sorted dateLe (load_incremental_sales store batch ts).2)) := by
  constructor
  · intro hwm
    have hperm : (incBatch (get_last_watermark store) batch).Perm batch := by
      rw [hwm]
      exact List.perm_insertionSort dateLe batch
    by_cases h : (incBatch (get_last_watermark store) batch).length = 0
    · rw [load_incremental_eq_zero store batch ts h]
      have hb : batch = [] := by
        have hl := hperm.length_eq
        rw [h] at hl
        exact List.length_eq_zero.mp hl.symm
      refine ⟨?_, List.sorted_nil, fun hne => absurd hb hne⟩
      rw [hb]
    · rw [load_incremental_eq_pos store batch ts h]
      exact ⟨hperm,
        List.sorted_insertionSort dateLe _,
        fun hne => rfl⟩
  · intro w hwm
    have hperm : (incBatch (get_last_watermark store) batch).Perm
        (batch.filter (fun r => decide (w < r.transaction_date))) := by
      rw [hwm]
      exact List.perm_insertionSort dateLe _
    by_cases h : (incBatch (get_last_watermark store) batch).length = 0
    · rw [load_incremental_eq_zero store batch ts h]
      have hfil : batch.filter (fun r => decide (w < r.transaction_date)) = [] := by
        have hl := hperm.length_eq
        rw [h] at hl
        exact List.length_eq_zero.mp hl.symm
      rw [hfil]
      exact ⟨List.Perm.refl _, List.sorted_nil⟩
    · rw [load_incremental_eq_pos store batch ts h]
      exact ⟨hperm, List.sorted_insertionSort dateLe _⟩

/-- C2 witness: a first (full) run and an incremental run at concrete
inputs, evaluated through the theorem. -/
theorem load_incremental_step_witness :
    ((load_incremental_sales none [⟨"T1", "P1", "C1", 1, 5⟩] 0).2.Perm
        [⟨"T1", "P1", "C1", 1, 5⟩])
    ∧ ((load_incremental_sales (some ⟨some 7, 0, 1⟩)
          [⟨"T1", "P1", "C1", 1, 5⟩, ⟨"T2", "P2", "C2", 2, 9⟩] 3).2.Perm
        ([⟨"T1", "P1", "C1", 1, 5⟩, ⟨"T2", "P2", "C2", 2, 9⟩].filter
          (fun r => decide (7 < r.transaction_date)))) :=
  ⟨((load_incremental_step none [⟨"T1", "P1", "C1", 1, 5⟩] 0).1 rfl).1,
   ((load_incremental_step (some ⟨some 7, 0, 1⟩)
      [⟨"T1", "P1", "C1", 1, 5⟩, ⟨"T2", "P2", "C2", 2, 9⟩] 3).2 7 rfl).1⟩

/-- C4: across any sequence of successful incremental runs the stored
`last_processed_date` is monotonically non-decreasing; a run whose
incremental batch is empty writes a state row with `last_run_ts` set to
the run's timestamp and `last_run_rows = 0`, leaves `last_processed_date`
unchanged, and loads nothing. -/
theorem watermark_monotone_zero_row (store : Option EtlState)
    (runs : List (List SaleRec × Nat)) (batch : List SaleRec) (ts : Nat) :
    (wmLe (get_last_watermark store)
        (get_last_watermark (run_sequence store runs)) = true)
    ∧ (incBatch (get_last_watermark store) batch = [] →
        (load_incremental_sales store batch ts).1
            = some ⟨get_last_watermark store, ts, 0⟩
          ∧ (load_incremental_sales store batch ts).2 = []) := by
  constructor
  · exact wmLe_run_sequence runs store
  · intro hemp
    have h0 : (incBatch (get_last_watermark store) batch).length = 0 := by
      rw [hemp]
      rfl
    rw [load_incremental_eq_zero store batch ts h0]
    exact ⟨rfl, rfl⟩

/-- C4 witness: a zero-qualifying-row run at a concrete state and batch,
evaluated through the theorem. -/
theorem watermark_monotone_zero_row_witness :
    (load_incremental_sales (some ⟨some 9, 0, 3⟩) [⟨"T1", "P1", "C1", 1, 5⟩] 4).1
      = some ⟨some 9, 4, 0⟩ :=
  ((watermark_monotone_zero_row (some ⟨some 9, 0, 3⟩) []
      [⟨"T1", "P1", "C1", 1, 5⟩] 4).2 (by decide)).1

theorem fetchGo_bounds (env : Nat → NetResult) :
    ∀ fuel attempt : Nat,
      (fetchGo env attempt fuel).requests ≤ fuel
      ∧ (fetchGo env attempt fuel).waits.sum ≤ backoffBudget attempt fuel := by
  intro fuel
  induction fuel with
  | zero => intro attempt; exact ⟨Nat.le_refl 0, Nat.le_refl 0⟩
  | succ fuel ih =>
    intro attempt
    cases henv : env attempt with
    | timeout =>
      simp only [fetchGo, henv]
      refine ⟨Nat.succ_le_succ (ih (attempt + 1)).1, ?_⟩
      rw [List.sum_cons, backoffBudget]
      exact Nat.add_le_add_left (ih (attempt + 1)).2 _
    | netError =>
      simp only [fetchGo, henv]
      exact ⟨Nat.succ_le_succ (Nat.zero_le _), Nat.zero_le _⟩
    | response status body =>
      simp only [fetchGo, henv]
      by_cases hst : status ≠ 200
      · rw [if_pos hst]
        by_cases hmax : attempt + 1 ≥ MAX_RETRIES
        · rw [if_pos hmax]
          exact ⟨Nat.succ_le_succ (Nat.zero_le _), Nat.zero_le _⟩
        · rw [if_neg hmax]
          refine ⟨Nat.succ_le_succ (ih (attempt + 1)).1, ?_⟩
          rw [List.sum_cons, backoffBudget]
          exact Nat.add_le_add_left (ih (attempt + 1)).2 _
      · rw [if_neg hst]
        cases body with
        | malformed => exact ⟨Nat.succ_le_succ (Nat.zero_le _), Nat.zero_le _⟩
        | arr rs => exact ⟨Nat.succ_le_succ (Nat.zero_le _), Nat.zero_le _⟩

/-- C6: the fetcher issues at most `MAX_RETRIES` HTTP requests, and the
total time spent in backoff waits is bounded by the configured backoff
schedule, the sum of `BACKOFF_FACTOR ^ attempt` over the attempt ceiling
(`2 + 4 + 8` with the configured constants). -/
theorem fetch_retry_bound (env : Nat → NetResult) :
    (fetch_all_product_metadata env).requests ≤ MAX_RETRIES
    ∧ (fetch_all_product_metadata env).waits.sum ≤ backoffBudget 0 MAX_RETRIES
    ∧ backoffBudget 0 MAX_RETRIES
        = BACKOFF_FACTOR ^ 1 + BACKOFF_FACTOR ^ 2 + BACKOFF_FACTOR ^ 3 :=
  ⟨(fetchGo_bounds env MAX_RETRIES 0).1,
   (fetchGo_bounds env MAX_RETRIES 0).2,
   by decide⟩

theorem fetchGo_netError_step (env : Nat → NetResult) (attempt fuel : Nat)
    (h : env attempt = NetResult.netError) :
    fetchGo env attempt (fuel + 1) = ⟨[], 1, []⟩ := by
  simp only [fetchGo, h]

theorem fetchGo_malformed_step (env : Nat → NetResult) (attempt fuel : Nat)
    (h : env attempt = NetResult.response 200 Body.malformed) :
    fetchGo env attempt (fuel + 1) = ⟨[], 1, []⟩ := by
  simp only [fetchGo, h]
  rw [if_neg (by omega)]

theorem fetchGo_timeout_run (env : Nat → NetResult) :
    ∀ (n fuel attempt : Nat), n ≤ fuel →
      (∀ i, i < n → env (attempt + i) = NetResult.timeout) →
      fetchGo env attempt fuel
        = ⟨(fetchGo env (attempt + n) (fuel - n)).result,
           (fetchGo env (attempt + n) (fuel - n)).requests + n,
           (List.range n).map (fun i => BACKOFF_FACTOR ^ (attempt + i + 1))
             ++ (fetchGo env (attempt + n) (fuel - n)).waits⟩ := by
  intro n
  induction n with
  | zero =>
    intro fuel attempt _ _
    simp
  | succ n ih =>
    intro fuel attempt hle h
    cases fuel with
    | zero => omega
    | succ fuel =>
      have h0 : env attempt = NetResult.timeout := by
        have h00 := h 0 (Nat.succ_pos n)
        simpa using h00
      simp only [fetchGo, h0]
      have ih2 := ih fuel (attempt + 1) (by omega) (fun i hi => by
        have hti := h (i + 1) (by omega)
        rwa [show attempt + (i + 1) = attempt + 1 + i by omega] at hti)
      rw [ih2]
      rw [show attempt + 1 + n = attempt + (n + 1) by omega]
      rw [show fuel - n = fuel + 1 - (n + 1) by omega]
      simp only [FetchOutcome.mk.injEq]
      refine ⟨trivial, by omega, ?_⟩
      rw [List.range_succ_eq_map, List.map_cons, List.map_map]
      have hf : ((fun i => BACKOFF_FACTOR ^ (attempt + i + 1)) ∘ Nat.succ)
          = (fun i => BACKOFF_FACTOR ^ (attempt + 1 + i + 1)) := by
        funext i
        simp only [Function.comp]
        congr 1
        omega
      rw [hf]
      rfl

/-- C7: the fetcher's error handling is asymmetric.  A run of timeouts is
retried with exponential backoff (`wait = BACKOFF_FACTOR ^ attempt`) up to
the attempt ceiling, and exhausting the retries returns an empty result
rather than raising; any other transport-level error after a (possibly
empty) run of timeouts returns an empty result immediately, with no
further request and no further wait; a 200 response whose body is not a
parseable record array likewise returns an empty result immediately. -/
theorem fetch_error_asymmetry (env : Nat → NetResult) :
    ((∀ i, i < MAX_RETRIES → env i = NetResult.timeout) →
      fetch_all_product_metadata env
        = ⟨[], MAX_RETRIES,
           [BACKOFF_FACTOR ^ 1, BACKOFF_FACTOR ^ 2, BACKOFF_FACTOR ^ 3]⟩)
    ∧ (∀ n, n < MAX_RETRIES → (∀ i, i < n → env i = NetResult.timeout) →
        env n = NetResult.netError →
        fetch_all_product_metadata env
          = ⟨[], n + 1,
             (List.range n).map (fun i => BACKOFF_FACTOR ^ (i + 1))⟩)
    ∧ (∀ n, n < MAX_RETRIES → (∀ i, i < n → env i = NetResult.timeout) →
        env n = NetResult.response 200 Body.malformed →
        fetch_all_product_metadata env
          = ⟨[], n + 1,
             (List.range n).map (fun i => BACKOFF_FACTOR ^ (i + 1))⟩) := by
  have hm : MAX_RETRIES = 3 := rfl
  refine ⟨?_, ?_, ?_⟩
  · intro h
    have hstep := fetchGo_timeout_run env MAX_RETRIES MAX_RETRIES 0
      (Nat.le_refl _) (fun i hi => by rw [Nat.zero_add]; exact h i hi)
    rw [fetch_all_product_metadata, hstep]
    rfl
  · intro n hn hpre henv
    have hstep := fetchGo_timeout_run env n MAX_RETRIES 0
      (Nat.le_of_lt hn) (fun i hi => by rw [Nat.zero_add]; exact hpre i hi)
    rw [fetch_all_product_metadata, hstep]
    obtain ⟨f, hf⟩ : ∃ f, MAX_RETRIES - n = f + 1 := ⟨MAX_RETRIES - n - 1, by omega⟩
    rw [hf, Nat.zero_add]
    rw [fetchGo_netError_step env n f henv]
    simp only [FetchOutcome.mk.injEq]
    refine ⟨trivial, by omega, ?_⟩
    rw [List.append_nil]
    have hfun : (fun i => BACKOFF_FACTOR ^ (0 + i + 1))
        = (fun i : Nat => BACKOFF_FACTOR ^ (i + 1)) := by
      funext i
      congr 1
      omega
    rw [hfun]
  · intro n hn hpre henv
    have hstep := fetchGo_timeout_run env n MAX_RETRIES 0
      (Nat.le_of_lt hn) (fun i hi => by rw [Nat.zero_add]; exact hpre i hi)
    rw [fetch_all_product_metadata, hstep]
    obtain ⟨f, hf⟩ : ∃ f, MAX_RETRIES - n = f + 1 := ⟨MAX_RETRIES - n - 1, by omega⟩
    rw [hf, Nat.zero_add]
    rw [fetchGo_malformed_step env n f henv]
    simp only [FetchOutcome.mk.injEq]
    refine ⟨trivial, by omega, ?_⟩
    rw [List.append_nil]
    have hfun : (fun i => BACKOFF_FACTOR ^ (0 + i + 1))
        = (fun i : Nat => BACKOFF_FACTOR ^ (i + 1)) := by
      funext i
      congr 1
      omega
    rw [hfun]

/-- C7 witness: an all-timeout environment and an environment whose second
request fails with a non-timeout transport error, evaluated through the
theorem. -/
theorem fetch_error_asymmetry_witness :
    (fetch_all_product_metadata (fun _ => NetResult.timeout)
      = ⟨[], MAX_RETRIES,
         [BACKOFF_FACTOR ^ 1, BACKOFF_FACTOR ^ 2, BACKOFF_FACTOR ^ 3]⟩)
    ∧ (fetch_all_product_metadata
        (fun i => if i = 0 then NetResult.timeout else NetResult.netError)
      = ⟨[], 2, (List.range 1).map (fun i => BACKOFF_FACTOR ^ (i + 1))⟩) :=
  ⟨(fetch_error_asymmetry (fun _ => NetResult.timeout)).1 (fun _ _ => rfl),
   (fetch_error_asymmetry
      (fun i => if i = 0 then NetResult.timeout else NetResult.netError)).2.1
    1 (by decide)
    (fun i hi => by
      have hi0 : i = 0 := by omega
      rw [hi0]
      rfl)
    rfl⟩

theorem keepFirstBy_subset (key : α → String) :
    ∀ (l : List α) (seen : List String) (x : α),
      x ∈ keepFirstBy key l seen → x ∈ l := by
  intro l
  induction l with
  | nil => intro seen x hx; cases hx
  | cons a l ih =>
    intro seen x hx
    simp only [keepFirstBy] at hx
    by_cases hs : seen.contains (key a) = true
    · rw [if_pos hs] at hx
      exact List.mem_cons_of_mem a (ih seen x hx)
    · rw [if_neg hs] at hx
      rcases List.mem_cons.mp hx with rfl | hx2
      · exact List.mem_cons_self x l
      · exact List.mem_cons_of_mem a (ih _ x hx2)

theorem mem_of_mem_dedupKeepLast {l : List ApiRec} {a : ApiRec}
    (h : a ∈ dedupKeepLast l) : a ∈ l := by
  rw [dedupKeepLast] at h
  have h1 := List.mem_reverse.mp h
  have h2 := keepFirstBy_subset (fun x => x.product_id) l.reverse [] a h1
  exact List.mem_reverse.mp h2

/-- C9: every record of the fetcher's normalized output has a rating that
is null or within the closed interval [0, 5]; per record the output rating
is the clamp of the coerced input rating (the record is kept, not
dropped), and the clamp is the identity on in-range ratings. -/
theorem rating_clamped (rs : List RawApiRec) :
    (∀ a ∈ normalizeApiBatch rs,
      a.rating = none ∨ ∃ q, a.rating = some q ∧ 0 ≤ q ∧ q ≤ 5)
    ∧ (∀ r : RawApiRec, (normalizeApiRecord r).rating = r.rating.map clampRating)
    ∧ (∀ q : ℚ, 0 ≤ clampRating q ∧ clampRating q ≤ 5
        ∧ (0 ≤ q → q ≤ 5 → clampRating q = q)) := by
  have hclamp : ∀ q : ℚ, 0 ≤ clampRating q ∧ clampRating q ≤ 5
      ∧ (0 ≤ q → q ≤ 5 → clampRating q = q) := by
    intro q
    rw [clampRating]
    by_cases h : q < 0 ∨ 5 < q
    · rw [if_pos h]
      refine ⟨le_max_left 0 _, max_le (by norm_num) (min_le_left 5 q), ?_⟩
      intro h0 h5
      exfalso
      rcases h with h | h <;> linarith
    · rw [if_neg h]
      push_neg at h
      exact ⟨h.1, h.2, fun _ _ => rfl⟩
  refine ⟨?_, fun r => rfl, hclamp⟩
  intro a ha
  have ha2 : a ∈ rs.map normalizeApiRecord := mem_of_mem_dedupKeepLast ha
  obtain ⟨r, _, rfl⟩ := List.mem_map.mp ha2
  cases hrat : r.rating with
  | none =>
    left
    simp [normalizeApiRecord, hrat]
  | some q =>
    right
    exact ⟨clampRating q, by simp [normalizeApiRecord, hrat],
      (hclamp q).1, (hclamp q).2.1⟩

/-- C9 witness: an out-of-range rating (7) is clamped to 5 in the
normalized batch, evaluated through the theorem. -/
theorem rating_clamped_witness :
    (⟨"P1", none, some (5 : ℚ), none⟩ : ApiRec).rating = none
      ∨ ∃ q, (⟨"P1", none, some (5 : ℚ), none⟩ : ApiRec).rating = some q
          ∧ 0 ≤ q ∧ q ≤ 5 :=
  (rating_clamped [⟨some "P1", none, some 7, none⟩]).1
    ⟨"P1", none, some 5, none⟩ (by decide)

/-- C5 counterexample: when the fetch returns an empty result, the
enricher leaves `description` and `availability_status` NULL instead of
applying the placeholder and "Unknown" defaults the claim asserts. -/
theorem enrich_empty_fetch_cex :
    ¬ (∀ e ∈ enrich_products_with_api [⟨"P1", "Name", "Books", none⟩] [],
        e.description = some "No description available."
        ∧ e.availability_status = some "Unknown") := by
  decide

/-- C5 amended: when the fetch result is nonempty, every product without a
matching metadata row is enriched with the fixed placeholder description,
availability "Unknown" and a null rating; when the fetch result is empty,
the enricher returns the base products with description, rating and
availability all null. -/
theorem enrich_default_fill (products : List ProdRec) (api : List ApiRec) :
    (api ≠ [] → ∀ p ∈ products,
      api.find? (fun a => a.product_id == p.product_id) = none →
      (⟨p.product_id, p.product_name, p.category, p.price,
        some "No description available.", none, some "Unknown"⟩ : EnrichedRec)
        ∈ enrich_products_with_api products api)
    ∧ (api = [] →
      enrich_products_with_api products api
        = products.map (fun p =>
            ⟨p.product_id, p.product_name, p.category, p.price,
             none, none, none⟩)) := by
  constructor
  · intro hne p hp hfind
    rw [enrich_products_with_api,
      if_neg (by simp only [List.isEmpty_iff]; exact hne)]
    refine List.mem_map.mpr ⟨p, hp, ?_⟩
    rw [hfind]
  · intro hemp
    subst hemp
    rfl

/-- C5 amended witness: one unmatched product against a nonempty API frame
and one product against an empty frame, evaluated through the theorem. -/
theorem enrich_default_fill_witness :
    ((⟨"P1", "Name", "Books", none, some "No description available.", none,
        some "Unknown"⟩ : EnrichedRec)
      ∈ enrich_products_with_api [⟨"P1", "Name", "Books", none⟩]
          [⟨"X9", some "d", some 1, some "In Stock"⟩])
    ∧ (enrich_products_with_api [⟨"P1", "Name", "Books", none⟩] []
        = [⟨"P1", "Name", "Books", none, none, none, none⟩]) :=
  ⟨(enrich_default_fill [⟨"P1", "Name", "Books", none⟩]
      [⟨"X9", some "d", some 1, some "In Stock"⟩]).1
    (by decide) ⟨"P1", "Name", "Books", none⟩ (by decide) (by decide),
   (enrich_default_fill [⟨"P1", "Name", "Books", none⟩] []).2 rfl⟩

/-- C8 failing inputs: the normalizer does not drop rows whose required
string fields are missing.  `astype(str)` renders a missing (`NaN`/`NA`)
cell as a non-empty string, so the empty-string critical-field masks miss
it: a product row with a missing `product_id` survives (as id "nan"), a
customer row whose `customer_id` is the empty string survives (the
`replace({"": pd.NA})` step hides it from the `== ""` test before
`astype(str)` re-materializes it as text), and a sales row with a missing
`transaction_id` survives — each contradicting the error-level log lines
announcing that rows with missing critical fields are dropped. -/
theorem normalizer_keeps_missing_required :
    clean_products [⟨none, some "Widget", some "books", some 5⟩]
        = [⟨"nan", "Widget", "Books", some 5⟩]
    ∧ clean_customers (fun _ => true) [⟨some "", some "Ann", none, none⟩]
        = [⟨"nan", "Ann", none, none⟩]
    ∧ clean_sales [⟨none, some "P1", some "C1", some 2, RawDate.parsed 10⟩]
        = [⟨"nan", "P1", "C1", 2, 10⟩] := by
  refine ⟨?_, ?_, ?_⟩ <;> decide
